import Mathlib

/-!
Verification of the indicator computation engine of `update_data.py`
(BTC Top Dashboard).  Dates are modelled as integers (epoch day numbers,
so `date₁ - date₂` is the day distance, exactly as Python's
`(d1 - d2).days`), and Python floats are modelled as exact rationals.
Fallible computations return `Option`; Python exceptions that escape a
function are modelled with `Except String`.
-/

namespace BtcDash

/-- A fetched observation series: `(date, value)` pairs, as produced by
`_fred_series` and consumed by all derived-metric functions. -/
abbrev Series := List (ℤ × ℚ)

/-- Python's `abs` on an integer day distance. -/
def zabs (z : ℤ) : ℤ := if z < 0 then -z else z

/-- Python's `abs` on a float, modelled on `ℚ`. -/
def qabs (q : ℚ) : ℚ := if q < 0 then -q else q

theorem zabs_eq_abs (z : ℤ) : zabs z = |z| := by
  unfold zabs
  rcases lt_or_le z 0 with h | h
  · rw [if_pos h, abs_of_neg h]
  · rw [if_neg (not_lt.mpr h), abs_of_nonneg h]

theorem qabs_eq_abs (q : ℚ) : qabs q = |q| := by
  unfold qabs
  rcases lt_or_le q 0 with h | h
  · rw [if_pos h, abs_of_neg h]
  · rw [if_neg (not_lt.mpr h), abs_of_nonneg h]

/-- Python's `min(x :: xs, key := key)`: folds over the list keeping the
current best, replacing it only when the candidate's key is strictly
smaller — so the first element attaining the minimum wins. -/
def pyMin {α : Type} (key : α → ℤ) (x : α) (xs : List α) : α :=
  xs.foldl (fun best y => if key y < key best then y else best) x

/-- `_value_near(series, target)`: value of the point whose date has the
minimum absolute day distance to `target`; `none` on an empty series. -/
def valueNear (series : Series) (target : ℤ) : Option ℚ :=
  match series with
  | [] => none
  | x :: xs => some ((pyMin (fun p => zabs (p.1 - target)) x xs).2)

/-- `_yoy(series)`: fractional change of the last value against the
nearest value to 365 days earlier. -/
def yoy (series : Series) : Option ℚ :=
  match series.getLast? with
  | none => none
  | some (latestDate, latestVal) =>
    match valueNear series (latestDate - 365) with
    | none => none
    | some prev => if prev = 0 then none else some ((latestVal - prev) / qabs prev)

/-- `_change_vs_days_ago(series, days)`: fractional change of the last
value against the nearest value to `days` days earlier. -/
def changeVsDaysAgo (series : Series) (days : ℤ) : Option ℚ :=
  match series.getLast? with
  | none => none
  | some (latestDate, latestVal) =>
    match valueNear series (latestDate - days) with
    | none => none
    | some prev => if prev = 0 then none else some ((latestVal - prev) / qabs prev)

/-- Python's `x or 0.0` applied to an optional float lookup result
(`_value_near(...) or 0.0`): `None` and the falsy float `0.0` both give
`0.0`, any other float passes through. -/
def orFloat0 (v : Option ℚ) : ℚ :=
  match v with
  | none => 0
  | some q => if q = 0 then 0 else q

@[simp] theorem orFloat0_none : orFloat0 none = 0 := rfl

@[simp] theorem orFloat0_some (q : ℚ) : orFloat0 (some q) = q := by
  by_cases h : q = 0 <;> simp [orFloat0, h]

/-- Insert an integer into a strictly ascending list, keeping it strictly
ascending (duplicates collapse); building block of `sorted({...})`. -/
def insSortedInt (d : ℤ) : List ℤ → List ℤ
  | [] => [d]
  | x :: xs => if d < x then d :: x :: xs else if d = x then x :: xs else x :: insSortedInt d xs

/-- `sorted(set(l))`: the distinct elements of `l` in ascending order. -/
def sortedDedupInt (l : List ℤ) : List ℤ := l.foldr insSortedInt []

/-- `_merge_net_liquidity(rrp, tga, bs)`: for each date in the union of
all three sources' dates (ascending), `net = bs - rrp - tga`, each term
looked up by nearest date with `or 0.0` defaulting. -/
def mergeNetLiquidity (rrp tga bs : Series) : Series :=
  (sortedDedupInt (rrp.map Prod.fst ++ tga.map Prod.fst ++ bs.map Prod.fst)).map
    (fun d =>
      (d, orFloat0 (valueNear bs d) - orFloat0 (valueNear rrp d) - orFloat0 (valueNear tga d)))

/-- `sum(xs) / len(xs)` (population mean). -/
def meanL (l : List ℚ) : ℚ := l.sum / l.length

/-- The `(net, price)` sample pairs of `_compute_beta_vs_btc`: points of
the net series inside `[startD, endD]` paired with the exact-date price,
pairs with a missing price dropped. -/
def pairedSamples (net : Series) (price : ℤ → Option ℚ) (startD endD : ℤ) : List (ℚ × ℚ) :=
  net.filterMap (fun p =>
    if p.1 < startD ∨ endD < p.1 then none
    else
      match price p.1 with
      | none => none
      | some pr => some (p.2, pr))

/-- Population covariance numerator over mean, as in `_compute_beta_vs_btc`. -/
def covOf (ps : List (ℚ × ℚ)) : ℚ :=
  (ps.map (fun q =>
    (q.1 - meanL (ps.map Prod.fst)) * (q.2 - meanL (ps.map Prod.snd)))).sum / ps.length

/-- Population variance of the x components, as in `_compute_beta_vs_btc`. -/
def varOf (ps : List (ℚ × ℚ)) : ℚ :=
  (ps.map (fun q => (q.1 - meanL (ps.map Prod.fst)) ^ 2)).sum / ps.length

/-- `_compute_beta_vs_btc(net_series)` with the BTC download injected:
`btc = none` models an empty download or a missing price column (both
return `None` in the source); otherwise the series is restricted to the
trailing 365-day window ending at its last date, paired with exact-date
prices, and the slope `cov/var` is returned when at least 20 pairs exist
and the variance is nonzero. -/
def computeBetaVsBtc (net : Series) (btc : Option (ℤ → Option ℚ)) : Option ℚ :=
  match net.getLast? with
  | none => none
  | some (endD, _) =>
    match btc with
    | none => none
    | some price =>
      let ps := pairedSamples net price (endD - 365) endD
      if ps.length < 20 then none
      else if varOf ps = 0 then none
      else some (covOf ps / varOf ps)

/-- The aggregation loop of `update_stablecoin_growth` (lines 439-452):
each element is one source's outcome (`none` when `_coingecko_growth`
raised or returned `None`); successes are collected and averaged, and the
result is `None` exactly when no source succeeded. -/
def averageOfSources (results : List (Option ℚ)) : Option ℚ :=
  let growths := results.filterMap id
  if growths.isEmpty then none else some (growths.sum / growths.length)

/-- `pyMin` returns an element of the list whose key is strictly smaller
than every earlier element's key and at most every later element's key:
the first element attaining the minimum. -/
theorem pyMin_spec {α : Type} (key : α → ℤ) :
    ∀ (xs : List α) (x : α), ∃ pre post,
      x :: xs = pre ++ pyMin key x xs :: post ∧
      (∀ a ∈ pre, key (pyMin key x xs) < key a) ∧
      (∀ a ∈ post, key (pyMin key x xs) ≤ key a) := by
  intro xs
  induction xs with
  | nil =>
    intro x
    exact ⟨[], [], rfl, by simp, by simp⟩
  | cons y ys ih =>
    intro x
    by_cases hxy : key y < key x
    · have hmin : pyMin key x (y :: ys) = pyMin key y ys := by
        simp [pyMin, List.foldl_cons, if_pos hxy]
      obtain ⟨pre, post, hdec, hpre, hpost⟩ := ih y
      have hle : key (pyMin key y ys) ≤ key y := by
        cases pre with
        | nil =>
          simp only [List.nil_append, List.cons.injEq] at hdec
          rw [← hdec.1]
        | cons p pre' =>
          have hp : p = y := by
            have h0 := congrArg (fun l => l.head?) hdec
            simp only [List.head?_cons, List.cons_append] at h0
            exact (Option.some.inj h0).symm
          exact le_of_lt (hpre p (by simp)) |>.trans (le_of_eq (by rw [hp]))
      refine ⟨x :: pre, post, ?_, ?_, ?_⟩
      · rw [hmin, List.cons_append, ← hdec]
      · intro a ha
        rcases List.mem_cons.mp ha with rfl | ha
        · rw [hmin]; exact lt_of_le_of_lt hle hxy
        · rw [hmin]; exact hpre a ha
      · intro a ha
        rw [hmin]; exact hpost a ha
    · have hmin : pyMin key x (y :: ys) = pyMin key x ys := by
        simp [pyMin, List.foldl_cons, if_neg hxy]
      have hxley : key x ≤ key y := le_of_not_lt hxy
      obtain ⟨pre, post, hdec, hpre, hpost⟩ := ih x
      cases pre with
      | nil =>
        simp only [List.nil_append, List.cons.injEq] at hdec
        refine ⟨[], y :: ys, ?_, by simp, ?_⟩
        · rw [hmin, ← hdec.1]; rfl
        · intro a ha
          rw [hmin, ← hdec.1]
          rcases List.mem_cons.mp ha with rfl | ha
          · exact hxley
          · rw [hdec.1]
            have : ys = post := hdec.2
            exact hpost a (this ▸ ha)
      | cons p pre' =>
        have hp : p = x := by
          have h0 := congrArg (fun l => l.head?) hdec
          simp only [List.head?_cons, List.cons_append] at h0
          exact (Option.some.inj h0).symm
        have htail : ys = pre' ++ pyMin key x ys :: post := by
          have := congrArg (fun l => l.tail) hdec
          simpa using this
        refine ⟨x :: y :: pre', post, ?_, ?_, ?_⟩
        · rw [hmin, List.cons_append, List.cons_append, ← htail]
        · intro a ha
          rw [hmin]
          rcases List.mem_cons.mp ha with rfl | ha
          · exact hpre p (by simp) |>.trans_le (le_of_eq (congrArg key hp)) |>.trans_le
              (le_of_eq rfl)
          · rcases List.mem_cons.mp ha with rfl | ha
            · exact lt_of_lt_of_le (hpre p (by simp) |>.trans_le
                (le_of_eq (congrArg key hp))) hxley
            · exact hpre a (by simp [ha])
        · intro a ha
          rw [hmin]; exact hpost a ha

@[simp] theorem valueNear_nil (t : ℤ) : valueNear [] t = none := rfl

theorem valueNear_isSome {s : Series} (hs : s ≠ []) (t : ℤ) :
    ∃ v, valueNear s t = some v := by
  cases s with
  | nil => exact absurd rfl hs
  | cons x xs => exact ⟨_, rfl⟩

theorem mem_insSortedInt {a d : ℤ} : ∀ {l : List ℤ},
    a ∈ insSortedInt d l ↔ a = d ∨ a ∈ l := by
  intro l
  induction l with
  | nil => simp [insSortedInt]
  | cons x xs ih =>
    unfold insSortedInt
    by_cases h1 : d < x
    · rw [if_pos h1]; simp
    · rw [if_neg h1]
      by_cases h2 : d = x
      · rw [if_pos h2]
        subst h2
        simp only [List.mem_cons]
        tauto
      · rw [if_neg h2]
        simp only [List.mem_cons, ih]
        tauto

theorem chain'_insSortedInt {d : ℤ} : ∀ {l : List ℤ},
    List.Chain' (· < ·) l → List.Chain' (· < ·) (insSortedInt d l) := by
  intro l
  induction l with
  | nil => intro _; simp [insSortedInt]
  | cons x xs ih =>
    intro hch
    unfold insSortedInt
    by_cases h1 : d < x
    · rw [if_pos h1]
      exact hch.cons' (by intro y hy; simp at hy; omega)
    · rw [if_neg h1]
      by_cases h2 : d = x
      · rw [if_pos h2]; exact hch
      · rw [if_neg h2]
        have hxd : x < d := by omega
        have htail : List.Chain' (· < ·) xs := hch.tail
        refine (ih htail).cons' ?_
        intro y hy
        cases xs with
        | nil =>
          simp [insSortedInt] at hy
          omega
        | cons z zs =>
          have hxz : x < z := (List.chain'_cons.mp hch).1
          unfold insSortedInt at hy
          by_cases hdz : d < z
          · rw [if_pos hdz] at hy
            simp at hy
            omega
          · rw [if_neg hdz] at hy
            by_cases hdz2 : d = z
            · rw [if_pos hdz2] at hy
              simp at hy
              omega
            · rw [if_neg hdz2] at hy
              simp at hy
              omega

theorem mem_sortedDedupInt {a : ℤ} : ∀ {l : List ℤ},
    a ∈ sortedDedupInt l ↔ a ∈ l := by
  intro l
  induction l with
  | nil => simp [sortedDedupInt]
  | cons x xs ih =>
    show a ∈ insSortedInt x (sortedDedupInt xs) ↔ _
    rw [mem_insSortedInt]
    simp [ih]

theorem chain'_sortedDedupInt : ∀ (l : List ℤ), List.Chain' (· < ·) (sortedDedupInt l) := by
  intro l
  induction l with
  | nil => simp [sortedDedupInt]
  | cons x xs ih => exact chain'_insSortedInt ih

/-- Helper: on a nonempty series the nearest lookup always succeeds, and
the returned value belongs to a point minimising the absolute day
distance, earliest such point first. -/
theorem valueNear_decomp (s : Series) (t : ℤ) (hs : s ≠ []) :
    ∃ (d : ℤ) (v : ℚ) (pre post : Series),
      s = pre ++ (d, v) :: post ∧ valueNear s t = some v ∧
      (∀ q ∈ pre, |d - t| < |q.1 - t|) ∧
      (∀ q ∈ post, |d - t| ≤ |q.1 - t|) := by
  cases s with
  | nil => exact absurd rfl hs
  | cons x xs =>
    obtain ⟨pre, post, hdec, hpre, hpost⟩ :=
      pyMin_spec (fun p => zabs (p.1 - t)) xs x
    set m := pyMin (fun p => zabs (p.1 - t)) x xs with hm
    refine ⟨m.1, m.2, pre, post, ?_, rfl, ?_, ?_⟩
    · simpa using hdec
    · intro q hq
      have := hpre q hq
      rwa [zabs_eq_abs, zabs_eq_abs] at this
    · intro q hq
      have := hpost q hq
      rwa [zabs_eq_abs, zabs_eq_abs] at this

end BtcDash

namespace BtcDash

/-- C3: on a nonempty series `_value_near` returns the value of a point
whose date minimises the absolute day distance to the target, and every
point strictly earlier in the series has strictly greater distance (so on
ties the earlier point wins); the empty series gives no value; on
`[(d0,10),(d10,20)]` with target `d5` the tie goes to `d0`. -/
theorem valueNear_nearest_first :
    (∀ t : ℤ, valueNear [] t = none) ∧
    (∀ (s : Series) (t : ℤ), s ≠ [] →
      ∃ (d : ℤ) (v : ℚ) (pre post : Series),
        s = pre ++ (d, v) :: post ∧ valueNear s t = some v ∧
        (∀ q ∈ pre, |d - t| < |q.1 - t|) ∧
        (∀ q ∈ post, |d - t| ≤ |q.1 - t|)) ∧
    valueNear [((0:ℤ), (10:ℚ)), (10, 20)] 5 = some 10 := by
  refine ⟨fun _ => rfl, valueNear_decomp, ?_⟩
  decide

/-- Witness for C3: the decomposition exists for the spec's concrete
tie-break example. -/
theorem valueNear_nearest_first_witness :
    ∃ (d : ℤ) (v : ℚ) (pre post : Series),
      ([((0:ℤ), (10:ℚ)), (10, 20)] : Series) = pre ++ (d, v) :: post ∧
      valueNear [((0:ℤ), (10:ℚ)), (10, 20)] 5 = some v ∧
      (∀ q ∈ pre, |d - 5| < |q.1 - 5|) ∧
      (∀ q ∈ post, |d - 5| ≤ |q.1 - 5|) :=
  valueNear_nearest_first.2.1 [((0:ℤ), (10:ℚ)), (10, 20)] 5 (by simp)

/-- C2 counterexample: the claim states `YoY([(d,5)])` is indeterminate,
but on a one-point series the nearest lookup finds the point itself
(`prev = 5 ≠ 0`), so the code returns `(5-5)/|5| = 0`, a determinate
result. -/
theorem yoy_singleton_determinate : yoy [((0:ℤ), (5:ℚ))] = some 0 := by
  norm_num [yoy, valueNear, pyMin, zabs, qabs]

/-- C2 (amended): `YoY(series)` equals `(latest - prev)/|prev|` with
`prev` the nearest value to 365 days before the last date, and is
indeterminate exactly when the series is empty or `prev = 0`; the
one-point series yields `0`, not indeterminate, and the spec's positive
example evaluates to `+0.10`. -/
theorem yoy_spec :
    (∀ (s : Series) (ld : ℤ) (lv : ℚ), s.getLast? = some (ld, lv) →
      yoy s = match valueNear s (ld - 365) with
        | none => none
        | some prev => if prev = 0 then none else some ((lv - prev) / |prev|)) ∧
    (∀ s : Series, yoy s = none ↔
      s = [] ∨ ∃ ld lv, s.getLast? = some (ld, lv) ∧ valueNear s (ld - 365) = some 0) ∧
    yoy [] = none ∧
    yoy [((-365:ℤ), (100:ℚ)), (0, 110)] = some (1/10) ∧
    yoy [((0:ℤ), (5:ℚ))] = some 0 := by
  have hformula : ∀ (s : Series) (ld : ℤ) (lv : ℚ), s.getLast? = some (ld, lv) →
      yoy s = match valueNear s (ld - 365) with
        | none => none
        | some prev => if prev = 0 then none else some ((lv - prev) / |prev|) := by
    intro s ld lv hlast
    simp only [yoy, hlast]
    cases hv : valueNear s (ld - 365) with
    | none => simp
    | some prev => simp [qabs_eq_abs]
  refine ⟨hformula, ?_, rfl, ?_, ?_⟩
  · intro s
    cases hs : s with
    | nil => simp [yoy]
    | cons x xs =>
      rw [← hs]
      have hne : s ≠ [] := by rw [hs]; exact List.cons_ne_nil _ _
      obtain ⟨⟨ld, lv⟩, hlast⟩ : ∃ p, s.getLast? = some p :=
        ⟨s.getLast hne, List.getLast?_eq_getLast_of_ne_nil hne⟩
      obtain ⟨prev, hprev⟩ := valueNear_isSome hne (ld - 365)
      have hy : yoy s = if prev = 0 then none else some ((lv - prev) / |prev|) := by
        rw [hformula s ld lv hlast, hprev]
      rw [hy]
      constructor
      · intro h
        by_cases hz : prev = 0
        · exact Or.inr ⟨ld, lv, hlast, hz ▸ hprev⟩
        · rw [if_neg hz] at h; exact absurd h (by simp)
      · rintro (h | ⟨ld', lv', hlast', hzero⟩)
        · exact absurd h hne
        · have : prev = 0 := by
            have hld : ld' = ld := by
              rw [hlast] at hlast'
              exact ((Prod.mk.injEq .. ▸ Option.some.inj hlast').1).symm
            rw [hld] at hzero
            exact Option.some.inj (hprev.symm.trans hzero)
          rw [if_pos this]
  · norm_num [yoy, valueNear, pyMin, zabs, qabs]
  · norm_num [yoy, valueNear, pyMin, zabs, qabs]

/-- Witness for C2: the formula applied to the spec's positive example. -/
theorem yoy_spec_witness :
    yoy [((-365:ℤ), (100:ℚ)), (0, 110)] =
      match valueNear [((-365:ℤ), (100:ℚ)), (0, 110)] ((0:ℤ) - 365) with
      | none => none
      | some prev => if prev = 0 then none else some (((110:ℚ) - prev) / |prev|) :=
  yoy_spec.1 [((-365:ℤ), (100:ℚ)), (0, 110)] 0 110 (by simp)

/-- C7 counterexample: `_change_vs_days_ago(series, 90)` is not
insensitive to points outside the trailing 90-day window: the window of
`[(10,100),(90,110)]` is `[0,90]`; prepending `(-5,50)` — dated before
the window start — changes the result from `+0.10` to `+1.20`, because
the nearest-date lookup for `ref_date = 0` searches the whole series and
`-5` is closer to `0` than `10`. -/
theorem changeVsDaysAgo_outside_window_sensitive :
    changeVsDaysAgo [((10:ℤ), (100:ℚ)), (90, 110)] 90 = some (1/10) ∧
    changeVsDaysAgo [((-5:ℤ), (50:ℚ)), (10, 100), (90, 110)] 90 = some (6/5) := by
  constructor
  · norm_num [changeVsDaysAgo, valueNear, pyMin, zabs, qabs]
  · norm_num [changeVsDaysAgo, valueNear, pyMin, zabs, qabs]

/-- C7 (amended): `WindowedChange(series, days)` equals
`(latest - prev)/|prev|` with `prev` the nearest value to `days` days
before the last date, with the same indeterminacy conditions as YoY (at
`days = 365` it coincides with YoY exactly); its result may however
depend on points outside the window, since the nearest lookup searches
the whole series. -/
theorem changeVsDaysAgo_spec :
    (∀ (s : Series) (days ld : ℤ) (lv : ℚ), s.getLast? = some (ld, lv) →
      changeVsDaysAgo s days = match valueNear s (ld - days) with
        | none => none
        | some prev => if prev = 0 then none else some ((lv - prev) / |prev|)) ∧
    (∀ s : Series, changeVsDaysAgo s 365 = yoy s) ∧
    (∀ (s : Series) (days : ℤ), changeVsDaysAgo s days = none ↔
      s = [] ∨ ∃ ld lv, s.getLast? = some (ld, lv) ∧ valueNear s (ld - days) = some 0) ∧
    changeVsDaysAgo [((0:ℤ), (100:ℚ)), (90, 110)] 90 = some (1/10) ∧
    changeVsDaysAgo [((-5:ℤ), (50:ℚ)), (10, 100), (90, 110)] 90 ≠
      changeVsDaysAgo [((10:ℤ), (100:ℚ)), (90, 110)] 90 := by
  have hformula : ∀ (s : Series) (days ld : ℤ) (lv : ℚ), s.getLast? = some (ld, lv) →
      changeVsDaysAgo s days = match valueNear s (ld - days) with
        | none => none
        | some prev => if prev = 0 then none else some ((lv - prev) / |prev|) := by
    intro s days ld lv hlast
    simp only [changeVsDaysAgo, hlast]
    cases hv : valueNear s (ld - days) with
    | none => simp
    | some prev => simp [qabs_eq_abs]
  refine ⟨hformula, fun s => rfl, ?_, ?_, ?_⟩
  · intro s days
    cases hs : s with
    | nil => simp [changeVsDaysAgo]
    | cons x xs =>
      rw [← hs]
      have hne : s ≠ [] := by rw [hs]; exact List.cons_ne_nil _ _
      obtain ⟨⟨ld, lv⟩, hlast⟩ : ∃ p, s.getLast? = some p :=
        ⟨s.getLast hne, List.getLast?_eq_getLast_of_ne_nil hne⟩
      obtain ⟨prev, hprev⟩ := valueNear_isSome hne (ld - days)
      have hy : changeVsDaysAgo s days =
          if prev = 0 then none else some ((lv - prev) / |prev|) := by
        rw [hformula s days ld lv hlast, hprev]
      rw [hy]
      constructor
      · intro h
        by_cases hz : prev = 0
        · exact Or.inr ⟨ld, lv, hlast, hz ▸ hprev⟩
        · rw [if_neg hz] at h; exact absurd h (by simp)
      · rintro (h | ⟨ld', lv', hlast', hzero⟩)
        · exact absurd h hne
        · have : prev = 0 := by
            have hld : ld' = ld := by
              rw [hlast] at hlast'
              exact ((Prod.mk.injEq .. ▸ Option.some.inj hlast').1).symm
            rw [hld] at hzero
            exact Option.some.inj (hprev.symm.trans hzero)
          rw [if_pos this]
  · norm_num [changeVsDaysAgo, valueNear, pyMin, zabs, qabs]
  · have h1 : changeVsDaysAgo [((-5:ℤ), (50:ℚ)), (10, 100), (90, 110)] 90 = some (6/5) := by
      norm_num [changeVsDaysAgo, valueNear, pyMin, zabs, qabs]
    have h2 : changeVsDaysAgo [((10:ℤ), (100:ℚ)), (90, 110)] 90 = some (1/10) := by
      norm_num [changeVsDaysAgo, valueNear, pyMin, zabs, qabs]
    rw [h1, h2]
    norm_num

/-- Witness for C7: the formula applied to a concrete 90-day example. -/
theorem changeVsDaysAgo_spec_witness :
    changeVsDaysAgo [((0:ℤ), (100:ℚ)), (90, 110)] 90 =
      match valueNear [((0:ℤ), (100:ℚ)), (90, 110)] ((90:ℤ) - 90) with
      | none => none
      | some prev => if prev = 0 then none else some (((110:ℚ) - prev) / |prev|) :=
  changeVsDaysAgo_spec.1 [((0:ℤ), (100:ℚ)), (90, 110)] 90 90 110 (by simp)

/-- C4: the multi-source average is the arithmetic mean of the
successfully computed results; it is indeterminate exactly when every
source failed, and with one failing and one succeeding source it returns
the succeeding source's value unchanged. -/
theorem averageOfSources_spec :
    (∀ results : List (Option ℚ),
      averageOfSources results = none ↔ ∀ r ∈ results, r = none) ∧
    (∀ results : List (Option ℚ), results.filterMap id ≠ [] →
      averageOfSources results = some (meanL (results.filterMap id))) ∧
    (∀ v : ℚ, averageOfSources [none, some v] = some v) ∧
    (∀ v : ℚ, averageOfSources [some v, none] = some v) ∧
    averageOfSources [none, none] = none := by
  have hempty : ∀ results : List (Option ℚ),
      results.filterMap id = [] ↔ ∀ r ∈ results, r = none := by
    intro results
    induction results with
    | nil => simp
    | cons r rs ih =>
      cases r with
      | none => simp only [List.filterMap_cons, id, List.mem_cons]; rw [ih]; simp
      | some v => simp
  refine ⟨?_, ?_, ?_, ?_, ?_⟩
  · intro results
    rw [← hempty]
    unfold averageOfSources
    by_cases h : results.filterMap id = []
    · simp [h]
    · simp [h, List.isEmpty_iff]
  · intro results h
    unfold averageOfSources meanL
    rw [if_neg (by simpa [List.isEmpty_iff] using h)]
  · intro v
    simp [averageOfSources, List.filterMap_cons]
  · intro v
    simp [averageOfSources, List.filterMap_cons]
  · rfl

/-- Witness for C4: the mean formula applied to one failing and one
succeeding source. -/
theorem averageOfSources_spec_witness :
    averageOfSources [none, some (7:ℚ)] =
      some (meanL (([none, some (7:ℚ)] : List (Option ℚ)).filterMap id)) :=
  averageOfSources_spec.2.1 [none, some (7:ℚ)] (by simp [List.filterMap_cons])

/-- Helper: the dates of the merged series are the sorted deduplicated
union of the sources' dates. -/
theorem mergeNetLiquidity_map_fst (rrp tga bs : Series) :
    (mergeNetLiquidity rrp tga bs).map Prod.fst =
      sortedDedupInt (rrp.map Prod.fst ++ tga.map Prod.fst ++ bs.map Prod.fst) := by
  unfold mergeNetLiquidity
  rw [List.map_map]
  exact List.map_id _

/-- Helper: membership in the merged series' dates is membership in some
source's dates. -/
theorem mem_mergeNetLiquidity_fst (rrp tga bs : Series) (d : ℤ) :
    d ∈ (mergeNetLiquidity rrp tga bs).map Prod.fst ↔
      d ∈ rrp.map Prod.fst ∨ d ∈ tga.map Prod.fst ∨ d ∈ bs.map Prod.fst := by
  rw [mergeNetLiquidity_map_fst, mem_sortedDedupInt]
  simp [List.mem_append, or_assoc]

/-- C5: the net-liquidity merge produces, for each date in the union of
the three sources' dates taken ascending (strictly, so no duplicates),
the value `b - r - t` of the three nearest-date lookups; on
`rrp=[(d,4)], tga=[(d,1)], bs=[(d,10)]` it yields `[(d,5)]`. -/
theorem mergeNetLiquidity_spec :
    (∀ rrp tga bs : Series,
      List.Chain' (· < ·) ((mergeNetLiquidity rrp tga bs).map Prod.fst)) ∧
    (∀ (rrp tga bs : Series) (d : ℤ),
      d ∈ (mergeNetLiquidity rrp tga bs).map Prod.fst ↔
        d ∈ rrp.map Prod.fst ∨ d ∈ tga.map Prod.fst ∨ d ∈ bs.map Prod.fst) ∧
    (∀ rrp tga bs : Series, rrp ≠ [] → tga ≠ [] → bs ≠ [] →
      ∀ p ∈ mergeNetLiquidity rrp tga bs, ∃ r t b,
        valueNear rrp p.1 = some r ∧ valueNear tga p.1 = some t ∧
        valueNear bs p.1 = some b ∧ p.2 = b - r - t) ∧
    mergeNetLiquidity [(0, 4)] [(0, 1)] [(0, 10)] = [((0:ℤ), (5:ℚ))] := by
  refine ⟨?_, mem_mergeNetLiquidity_fst, ?_, ?_⟩
  · intro rrp tga bs
    rw [mergeNetLiquidity_map_fst]
    exact chain'_sortedDedupInt _
  · intro rrp tga bs hr ht hb p hp
    unfold mergeNetLiquidity at hp
    obtain ⟨d, _, hpd⟩ := List.mem_map.mp hp
    obtain ⟨r, hrv⟩ := valueNear_isSome hr d
    obtain ⟨t, htv⟩ := valueNear_isSome ht d
    obtain ⟨b, hbv⟩ := valueNear_isSome hb d
    refine ⟨r, t, b, ?_, ?_, ?_, ?_⟩
    · rw [← hpd]; exact hrv
    · rw [← hpd]; exact htv
    · rw [← hpd]; exact hbv
    · rw [← hpd]
      simp only [hrv, htv, hbv, orFloat0_some]
  · norm_num [mergeNetLiquidity, sortedDedupInt, insSortedInt, valueNear, pyMin,
      orFloat0, zabs]

/-- Witness for C5: the per-date combine property instantiated on the
spec's concrete example. -/
theorem mergeNetLiquidity_spec_witness :
    ∃ r t b, valueNear [((0:ℤ), (4:ℚ))] 0 = some r ∧
      valueNear [((0:ℤ), (1:ℚ))] 0 = some t ∧
      valueNear [((0:ℤ), (10:ℚ))] 0 = some b ∧
      ((0:ℤ), (5:ℚ)).2 = b - r - t := by
  have h := mergeNetLiquidity_spec.2.2.1 [((0:ℤ), (4:ℚ))] [((0:ℤ), (1:ℚ))]
    [((0:ℤ), (10:ℚ))] (by simp) (by simp) (by simp) ((0:ℤ), (5:ℚ))
  exact h (by
    norm_num [mergeNetLiquidity, sortedDedupInt, insSortedInt, valueNear, pyMin,
      orFloat0, zabs])

/-- C10: with one source empty, the net-liquidity merge still produces a
composite over the union of the other two sources' dates, the empty
source contributing `0.0` at every date (via `or 0.0`); in particular the
merge is a total function — it cannot fail — and is nonempty whenever a
remaining source is. -/
theorem mergeNetLiquidity_empty_source :
    (∀ tga bs : Series, mergeNetLiquidity [] tga bs =
      (sortedDedupInt (tga.map Prod.fst ++ bs.map Prod.fst)).map
        (fun d => (d, orFloat0 (valueNear bs d) - 0 - orFloat0 (valueNear tga d)))) ∧
    (∀ rrp bs : Series, mergeNetLiquidity rrp [] bs =
      (sortedDedupInt (rrp.map Prod.fst ++ bs.map Prod.fst)).map
        (fun d => (d, orFloat0 (valueNear bs d) - orFloat0 (valueNear rrp d) - 0))) ∧
    (∀ rrp tga : Series, mergeNetLiquidity rrp tga [] =
      (sortedDedupInt (rrp.map Prod.fst ++ tga.map Prod.fst)).map
        (fun d => (d, 0 - orFloat0 (valueNear rrp d) - orFloat0 (valueNear tga d)))) ∧
    (∀ tga bs : Series, tga ≠ [] → mergeNetLiquidity [] tga bs ≠ []) ∧
    mergeNetLiquidity [] [(0, 4)] [(0, 10)] = [((0:ℤ), (6:ℚ))] := by
  refine ⟨?_, ?_, ?_, ?_, ?_⟩
  · intro tga bs
    unfold mergeNetLiquidity
    simp [valueNear_nil]
  · intro rrp bs
    unfold mergeNetLiquidity
    simp [valueNear_nil]
  · intro rrp tga
    unfold mergeNetLiquidity
    simp [valueNear_nil]
  · intro tga bs ht hcontra
    obtain ⟨x, hxmem⟩ := List.exists_mem_of_ne_nil tga ht
    have hx : x.1 ∈ (mergeNetLiquidity [] tga bs).map Prod.fst := by
      rw [mem_mergeNetLiquidity_fst]
      exact Or.inr (Or.inl (List.mem_map_of_mem _ hxmem))
    rw [hcontra] at hx
    simp at hx
  · norm_num [mergeNetLiquidity, sortedDedupInt, insSortedInt, valueNear, pyMin,
      orFloat0, zabs]

/-- Witness for C10: nonemptiness discharged on the concrete example. -/
theorem mergeNetLiquidity_empty_source_witness :
    mergeNetLiquidity [] [((0:ℤ), (4:ℚ))] [((0:ℤ), (10:ℚ))] ≠ [] :=
  mergeNetLiquidity_empty_source.2.2.2.1 [((0:ℤ), (4:ℚ))] [((0:ℤ), (10:ℚ))] (by simp)

theorem sum_map_mul_left_q {α : Type} (l : List α) (f : α → ℚ) (m : ℚ) :
    (l.map (fun a => m * f a)).sum = m * (l.map f).sum := by
  induction l with
  | nil => simp
  | cons x xs ih => simp [ih]; ring

theorem sum_map_add_q {α : Type} (l : List α) (f g : α → ℚ) :
    (l.map (fun a => f a + g a)).sum = (l.map f).sum + (l.map g).sum := by
  induction l with
  | nil => simp
  | cons x xs ih => simp [ih]; ring

theorem sum_map_const_q {α : Type} (l : List α) (c : ℚ) :
    (l.map (fun _ => c)).sum = l.length * c := by
  induction l with
  | nil => simp
  | cons x xs ih => simp [ih]; ring

/-- Helper: on perfectly linear pairs (`y = m·x + c` for every sample)
the population covariance is `m` times the population variance. -/
theorem covOf_linear (ps : List (ℚ × ℚ)) (m c : ℚ) (hn : ps ≠ [])
    (hlin : ∀ q ∈ ps, q.2 = m * q.1 + c) : covOf ps = m * varOf ps := by
  have hlen : (ps.length : ℚ) ≠ 0 := by
    have : 0 < ps.length := List.length_pos.mpr hn
    exact_mod_cast Nat.pos_iff_ne_zero.mp this
  set mx := meanL (ps.map Prod.fst) with hmx
  have hsnd : ps.map Prod.snd = ps.map (fun q => m * q.1 + c) :=
    List.map_congr_left hlin
  have hsum : (ps.map Prod.snd).sum = m * (ps.map Prod.fst).sum + ps.length * c := by
    rw [hsnd]
    rw [sum_map_add_q ps (fun q => m * q.1) (fun _ => c),
      sum_map_mul_left_q ps (fun q => q.1) m, sum_map_const_q]
  have hmy : meanL (ps.map Prod.snd) = m * mx + c := by
    unfold meanL
    rw [hsum, List.length_map, hmx]
    unfold meanL
    rw [List.length_map]
    field_simp
    ring
  have hcong : ps.map (fun q => (q.1 - mx) * (q.2 - meanL (ps.map Prod.snd))) =
      ps.map (fun q => m * ((q.1 - mx) ^ 2)) := by
    refine List.map_congr_left ?_
    intro q hq
    rw [hmy, hlin q hq]
    ring
  unfold covOf varOf
  rw [← hmx, hcong, sum_map_mul_left_q ps (fun q => (q.1 - mx) ^ 2) m, mul_div_assoc]

/-- C6: `_compute_beta_vs_btc` is indeterminate on an empty series, a
failed/empty price download, fewer than 20 paired samples inside the
trailing 365-day window, or zero variance of the net values; on a
perfectly linear paired sample set `y = m·x + c` with at least 20 samples
and nonzero variance it returns exactly the slope `m`
(population covariance over population variance). -/
theorem computeBetaVsBtc_spec :
    (∀ btc, computeBetaVsBtc [] btc = none) ∧
    (∀ net : Series, computeBetaVsBtc net none = none) ∧
    (∀ (net : Series) (price : ℤ → Option ℚ) (endD : ℤ) (endV : ℚ),
      net.getLast? = some (endD, endV) →
      (pairedSamples net price (endD - 365) endD).length < 20 →
      computeBetaVsBtc net (some price) = none) ∧
    (∀ (net : Series) (price : ℤ → Option ℚ) (endD : ℤ) (endV : ℚ),
      net.getLast? = some (endD, endV) →
      varOf (pairedSamples net price (endD - 365) endD) = 0 →
      computeBetaVsBtc net (some price) = none) ∧
    (∀ (net : Series) (price : ℤ → Option ℚ) (endD : ℤ) (endV : ℚ) (m c : ℚ),
      net.getLast? = some (endD, endV) →
      (∀ q ∈ pairedSamples net price (endD - 365) endD, q.2 = m * q.1 + c) →
      20 ≤ (pairedSamples net price (endD - 365) endD).length →
      varOf (pairedSamples net price (endD - 365) endD) ≠ 0 →
      computeBetaVsBtc net (some price) = some m) := by
  refine ⟨fun _ => rfl, ?_, ?_, ?_, ?_⟩
  · intro net
    unfold computeBetaVsBtc
    cases net.getLast? with
    | none => rfl
    | some p => rfl
  · intro net price endD endV hlast hcount
    simp only [computeBetaVsBtc, hlast]
    rw [if_pos hcount]
  · intro net price endD endV hlast hvar
    simp only [computeBetaVsBtc, hlast]
    by_cases hcount : (pairedSamples net price (endD - 365) endD).length < 20
    · rw [if_pos hcount]
    · rw [if_neg hcount, if_pos hvar]
  · intro net price endD endV m c hlast hlin hcount hvar
    have hne : pairedSamples net price (endD - 365) endD ≠ [] := by
      intro h
      rw [h] at hcount
      simp at hcount
    simp only [computeBetaVsBtc, hlast]
    rw [if_neg (by omega), if_neg hvar]
    rw [covOf_linear _ m c hne hlin, mul_div_cancel_right₀ m hvar]

/-- Synthetic perfectly linear data for the beta witness: 21 daily points
with net value equal to the day number. -/
def synthNet : Series :=
  [(0, 0), (1, 1), (2, 2), (3, 3), (4, 4), (5, 5), (6, 6), (7, 7), (8, 8), (9, 9),
   (10, 10), (11, 11), (12, 12), (13, 13), (14, 14), (15, 15), (16, 16), (17, 17),
   (18, 18), (19, 19), (20, 20)]

/-- Synthetic price mapping for the beta witness: price is `2·d + 3` at
every date `d`, so the paired samples are perfectly linear with slope 2. -/
def synthPrice : ℤ → Option ℚ := fun d => some (2 * (d : ℚ) + 3)

/-- Witness for C6: on the synthetic linear data set (21 pairs,
`y = 2·x + 3`, nonzero variance) beta is exactly the slope 2. -/
theorem computeBetaVsBtc_spec_witness :
    computeBetaVsBtc synthNet (some synthPrice) = some 2 := by
  have hps : pairedSamples synthNet synthPrice ((20:ℤ) - 365) 20 =
      [(0, 3), (1, 5), (2, 7), (3, 9), (4, 11), (5, 13), (6, 15), (7, 17), (8, 19), (9, 21),
       (10, 23), (11, 25), (12, 27), (13, 29), (14, 31), (15, 33), (16, 35), (17, 37),
       (18, 39), (19, 41), (20, 43)] := by
    norm_num [pairedSamples, synthNet, synthPrice, List.filterMap_cons]
  refine computeBetaVsBtc_spec.2.2.2.2 synthNet synthPrice 20 20 2 3 rfl ?_ ?_ ?_
  · rw [hps]
    intro q hq
    fin_cases hq <;> norm_num
  · rw [hps]
    norm_num
  · rw [hps]
    norm_num [varOf, meanL, List.map_cons, List.sum_cons]

section Dict

variable {K V : Type} [DecidableEq K]

/-- One Python dict assignment `m[k] = v`: replace the binding in place if
the key is present (dict order is preserved), otherwise append it. -/
def dictInsert (m : List (K × V)) (k : K) (v : V) : List (K × V) :=
  if k ∈ m.map Prod.fst then m.map (fun kv => if kv.1 = k then (k, v) else kv)
  else m ++ [(k, v)]

/-- Python's `m.update(p)`: sequential assignments of `p`'s bindings. -/
def dictUpdate (m p : List (K × V)) : List (K × V) :=
  p.foldl (fun acc kv => dictInsert acc kv.1 kv.2) m

/-- The binding a Python dict built by sequential assignment associates
with a key: the value of the key's last occurrence. -/
def lookupLast : List (K × V) → K → Option V
  | [], _ => none
  | (k', v') :: rest, k =>
    match lookupLast rest k with
    | some v => some v
    | none => if k = k' then some v' else none

theorem keys_substOne (m : List (K × V)) (k : K) (v : V) :
    (m.map (fun kv => if kv.1 = k then (k, v) else kv)).map Prod.fst = m.map Prod.fst := by
  rw [List.map_map]
  refine List.map_congr_left ?_
  intro kv _
  by_cases h : kv.1 = k
  · simp [Function.comp, h]
  · simp [Function.comp, h]

theorem mem_keys_dictInsert {m : List (K × V)} {k k' : K} {v : V} :
    k' ∈ (dictInsert m k v).map Prod.fst ↔ k' ∈ m.map Prod.fst ∨ k' = k := by
  unfold dictInsert
  by_cases h : k ∈ m.map Prod.fst
  · rw [if_pos h, keys_substOne]
    constructor
    · exact Or.inl
    · rintro (hm | rfl)
      · exact hm
      · exact h
  · rw [if_neg h]
    simp

theorem mem_keys_dictUpdate_of_left {m : List (K × V)} {k : K} :
    ∀ {p : List (K × V)}, k ∈ m.map Prod.fst → k ∈ (dictUpdate m p).map Prod.fst := by
  intro p
  induction p generalizing m with
  | nil => intro h; exact h
  | cons kv rest ih =>
    intro h
    exact ih (mem_keys_dictInsert.mpr (Or.inl h))

theorem mem_keys_dictUpdate_of_right {k : K} :
    ∀ {p m : List (K × V)}, k ∈ p.map Prod.fst → k ∈ (dictUpdate m p).map Prod.fst := by
  intro p
  induction p with
  | nil => intro m h; simp at h
  | cons kv rest ih =>
    intro m h
    rw [List.map_cons] at h
    show k ∈ (dictUpdate (dictInsert m kv.1 kv.2) rest).map Prod.fst
    rcases List.mem_cons.mp h with h1 | h1
    · exact mem_keys_dictUpdate_of_left (mem_keys_dictInsert.mpr (Or.inr h1))
    · exact ih h1

/-- The pointwise effect of replaying a patch over a dict in which every
patch key is already present. -/
def substLast (p : List (K × V)) (kv : K × V) : K × V :=
  match lookupLast p kv.1 with
  | some v => (kv.1, v)
  | none => kv

theorem substLast_cons_substOne (k : K) (v : V) (rest : List (K × V)) (kv : K × V) :
    substLast rest (if kv.1 = k then (k, v) else kv) = substLast ((k, v) :: rest) kv := by
  obtain ⟨k0, v0⟩ := kv
  by_cases h1 : k0 = k
  · subst h1
    rw [if_pos rfl]
    show substLast rest (k0, v) = substLast ((k0, v) :: rest) (k0, v0)
    simp only [substLast, lookupLast]
    cases hr : lookupLast rest k0 with
    | some w => simp [hr]
    | none => simp [hr]
  · rw [if_neg h1]
    show substLast rest (k0, v0) = substLast ((k, v) :: rest) (k0, v0)
    simp only [substLast, lookupLast]
    cases hr : lookupLast rest k0 with
    | some w => simp [hr]
    | none => simp [hr, h1]

theorem dictUpdate_allPresent :
    ∀ (p m : List (K × V)), (∀ k ∈ p.map Prod.fst, k ∈ m.map Prod.fst) →
      dictUpdate m p = m.map (substLast p) := by
  intro p
  induction p with
  | nil =>
    intro m _
    have : m.map (substLast []) = m.map id := List.map_congr_left (fun kv _ => rfl)
    rw [this, List.map_id]
    rfl
  | cons kv rest ih =>
    intro m h
    obtain ⟨k, v⟩ := kv
    have hk : k ∈ m.map Prod.fst := h k (by simp)
    have hins : dictInsert m k v = m.map (fun kv => if kv.1 = k then (k, v) else kv) := by
      unfold dictInsert
      rw [if_pos hk]
    have hstep : dictUpdate m ((k, v) :: rest) = dictUpdate (dictInsert m k v) rest := rfl
    have hrest : ∀ k' ∈ rest.map Prod.fst, k' ∈ (dictInsert m k v).map Prod.fst := by
      intro k' hk'
      exact mem_keys_dictInsert.mpr (Or.inl (h k' (by simp [hk'])))
    rw [hstep, ih (dictInsert m k v) hrest, hins, List.map_map]
    refine List.map_congr_left ?_
    intro kv _
    exact substLast_cons_substOne k v rest kv

theorem lookupLast_isSome_of_mem {k : K} :
    ∀ {p : List (K × V)}, k ∈ p.map Prod.fst → (lookupLast p k).isSome := by
  intro p
  induction p with
  | nil => intro h; simp at h
  | cons kv rest ih =>
    intro h
    obtain ⟨k', v'⟩ := kv
    rw [List.map_cons] at h
    show (match lookupLast rest k with
      | some v => some v
      | none => if k = k' then some v' else none).isSome
    cases hr : lookupLast rest k with
    | some w => simp
    | none =>
      rcases List.mem_cons.mp h with h1 | h1
      · simp [show k = k' from h1]
      · have := ih h1
        rw [hr] at this
        simp at this

theorem dictInsert_value {m : List (K × V)} {k : K} {v : V} :
    ∀ kv ∈ dictInsert m k v, kv.1 = k → kv.2 = v := by
  intro kv hkv hk
  unfold dictInsert at hkv
  by_cases h : k ∈ m.map Prod.fst
  · rw [if_pos h] at hkv
    obtain ⟨orig, _, horig⟩ := List.mem_map.mp hkv
    by_cases ho : orig.1 = k
    · rw [if_pos ho] at horig
      rw [← horig]
    · rw [if_neg ho] at horig
      rw [← horig] at hk
      exact absurd hk ho
  · rw [if_neg h] at hkv
    rcases List.mem_append.mp hkv with h1 | h1
    · exact absurd (hk ▸ List.mem_map_of_mem Prod.fst h1) h
    · rw [List.mem_singleton.mp h1]

theorem dictInsert_untouched {m : List (K × V)} {k k₁ : K} {v₁ : V} (hne : k ≠ k₁) :
    ∀ kv : K × V, kv.1 = k → (kv ∈ dictInsert m k₁ v₁ ↔ kv ∈ m) := by
  intro kv hk
  unfold dictInsert
  by_cases h : k₁ ∈ m.map Prod.fst
  · rw [if_pos h]
    constructor
    · intro hkv
      obtain ⟨orig, hom, horig⟩ := List.mem_map.mp hkv
      by_cases ho : orig.1 = k₁
      · rw [if_pos ho] at horig
        rw [← horig] at hk
        exact absurd hk (Ne.symm hne)
      · rw [if_neg ho] at horig
        rw [← horig]
        exact hom
    · intro hkv
      refine List.mem_map.mpr ⟨kv, hkv, ?_⟩
      rw [if_neg (by rw [hk]; exact hne)]
  · rw [if_neg h]
    constructor
    · intro hkv
      rcases List.mem_append.mp hkv with h1 | h1
      · exact h1
      · rw [List.mem_singleton.mp h1] at hk
        exact absurd hk (Ne.symm hne)
    · intro hkv
      exact List.mem_append.mpr (Or.inl hkv)

theorem dictUpdate_untouched {k : K} :
    ∀ {p : List (K × V)}, k ∉ p.map Prod.fst →
      ∀ {m : List (K × V)} (kv : K × V), kv.1 = k → (kv ∈ dictUpdate m p ↔ kv ∈ m) := by
  intro p
  induction p with
  | nil => intro _ m kv _; exact Iff.rfl
  | cons kv₁ rest ih =>
    intro hk m kv hkv
    obtain ⟨k₁, v₁⟩ := kv₁
    have hne : k ≠ k₁ := by
      intro hcontra
      exact hk (by simp [hcontra])
    have hrest : k ∉ rest.map Prod.fst := by
      intro hcontra
      exact hk (by simp [hcontra])
    have hstep : dictUpdate m ((k₁, v₁) :: rest) = dictUpdate (dictInsert m k₁ v₁) rest := rfl
    rw [hstep, ih hrest kv hkv, dictInsert_untouched hne kv hkv]

theorem dictUpdate_value {k : K} {w : V} :
    ∀ {p : List (K × V)}, lookupLast p k = some w →
      ∀ {m : List (K × V)} (kv : K × V), kv ∈ dictUpdate m p → kv.1 = k → kv.2 = w := by
  intro p
  induction p with
  | nil => intro h; simp [lookupLast] at h
  | cons kv₁ rest ih =>
    intro hl m kv hkv hk
    obtain ⟨k₁, v₁⟩ := kv₁
    have hstep : dictUpdate m ((k₁, v₁) :: rest) = dictUpdate (dictInsert m k₁ v₁) rest := rfl
    rw [hstep] at hkv
    have hl' : (match lookupLast rest k with
      | some v => some v
      | none => if k = k₁ then some v₁ else none) = some w := hl
    cases hr : lookupLast rest k with
    | some w' =>
      rw [hr] at hl'
      exact ih (hr.trans (by simpa using hl')) kv hkv hk
    | none =>
      rw [hr] at hl'
      have hkk : k = k₁ ∧ v₁ = w := by
        by_cases he : k = k₁
        · rw [if_pos he] at hl'
          exact ⟨he, Option.some.inj hl'⟩
        · rw [if_neg he] at hl'
          exact absurd hl' (by simp)
      have hnotin : k ∉ rest.map Prod.fst := by
        intro hcontra
        have := lookupLast_isSome_of_mem (V := V) hcontra
        rw [hr] at this
        simp at this
      have hmem : kv ∈ dictInsert m k₁ v₁ :=
        (dictUpdate_untouched hnotin kv hk).mp hkv
      rw [← hkk.2]
      exact dictInsert_value kv (hkk.1 ▸ hmem) hk

/-- Replaying a patch a second time over an already-patched dict changes
nothing: every patch key is present with its final value, so every
assignment is an in-place no-op. -/
theorem dictUpdate_idem (m p : List (K × V)) :
    dictUpdate (dictUpdate m p) p = dictUpdate m p := by
  have hpres : ∀ k ∈ p.map Prod.fst, k ∈ (dictUpdate m p).map Prod.fst :=
    fun k hk => mem_keys_dictUpdate_of_right hk
  rw [dictUpdate_allPresent p (dictUpdate m p) hpres]
  have : ∀ kv ∈ dictUpdate m p, substLast p kv = kv := by
    intro kv hkv
    unfold substLast
    cases hl : lookupLast p kv.1 with
    | none => rfl
    | some w =>
      have hv : kv.2 = w := dictUpdate_value hl kv hkv rfl
      rw [← hv]
  rw [List.map_congr_left this]
  exact List.map_id _

theorem lookupLast_cons (k k' : K) (v' : V) (rest : List (K × V)) :
    lookupLast ((k', v') :: rest) k =
      match lookupLast rest k with
      | some v => some v
      | none => if k = k' then some v' else none := rfl

/-- Replacing the binding of a different key in place does not change what
a lookup of `k` sees. -/
theorem lookupLast_substOne {k k₁ : K} {v₁ : V} (hne : k ≠ k₁) :
    ∀ m : List (K × V),
      lookupLast (m.map (fun kv => if kv.1 = k₁ then (k₁, v₁) else kv)) k = lookupLast m k := by
  intro m
  induction m with
  | nil => rfl
  | cons kv₀ ms ihm =>
    obtain ⟨k₀, v₀⟩ := kv₀
    rw [List.map_cons]
    by_cases h0 : k₀ = k₁
    · rw [show (if ((k₀, v₀) : K × V).1 = k₁ then (k₁, v₁) else (k₀, v₀)) = (k₁, v₁) from
        if_pos h0]
      rw [lookupLast_cons, lookupLast_cons, ihm]
      cases lookupLast ms k with
      | some w => rfl
      | none =>
        show (if k = k₁ then some v₁ else none) = if k = k₀ then some v₀ else none
        rw [if_neg hne, if_neg (fun hc => hne (hc.trans h0))]
    · rw [show (if ((k₀, v₀) : K × V).1 = k₁ then (k₁, v₁) else (k₀, v₀)) = (k₀, v₀) from
        if_neg h0]
      rw [lookupLast_cons, lookupLast_cons, ihm]

/-- Appending a binding for a different key does not change what a lookup
of `k` sees. -/
theorem lookupLast_append_single {k k₁ : K} {v₁ : V} (hne : k ≠ k₁) :
    ∀ m : List (K × V), lookupLast (m ++ [(k₁, v₁)]) k = lookupLast m k := by
  intro m
  induction m with
  | nil =>
    show (match (lookupLast [] k : Option V) with
      | some v => some v
      | none => if k = k₁ then some v₁ else none) = none
    simp [lookupLast, hne]
  | cons kv₀ ms ihm =>
    obtain ⟨k₀, v₀⟩ := kv₀
    rw [List.cons_append, lookupLast_cons, lookupLast_cons, ihm]

theorem lookupLast_dictInsert_ne {k k₁ : K} {v₁ : V} (hne : k ≠ k₁) (m : List (K × V)) :
    lookupLast (dictInsert m k₁ v₁) k = lookupLast m k := by
  unfold dictInsert
  by_cases h : k₁ ∈ m.map Prod.fst
  · rw [if_pos h]
    exact lookupLast_substOne hne m
  · rw [if_neg h]
    exact lookupLast_append_single hne m

/-- A patch does not disturb the binding of any key it does not mention. -/
theorem lookupLast_dictUpdate_untouched {k : K} :
    ∀ {p : List (K × V)}, k ∉ p.map Prod.fst →
      ∀ m : List (K × V), lookupLast (dictUpdate m p) k = lookupLast m k := by
  intro p
  induction p with
  | nil => intro _ m; rfl
  | cons kv₁ rest ih =>
    intro hk m
    obtain ⟨k₁, v₁⟩ := kv₁
    have hne : k ≠ k₁ := fun hcontra => hk (by simp [hcontra])
    have hrest : k ∉ rest.map Prod.fst := fun hcontra => hk (by simp [hcontra])
    have hstep : dictUpdate m ((k₁, v₁) :: rest) = dictUpdate (dictInsert m k₁ v₁) rest := rfl
    rw [hstep, ih hrest, lookupLast_dictInsert_ne hne]

end Dict

/-- Floor of a rational, computed with integer floor division. -/
def zfloorQ (x : ℚ) : ℤ := Int.fdiv x.num x.den

/-- Python's `round` to an integer: round half to even (banker's
rounding), on the exact rational value. -/
def halfEvenZ (x : ℚ) : ℤ :=
  let f := zfloorQ x
  let r := x - (f : ℚ)
  if r < 1/2 then f
  else if (1:ℚ)/2 < r then f + 1
  else if f % 2 = 0 then f else f + 1

/-- Python's `round(x, n)` modelled on exact rationals. -/
def roundTo (x : ℚ) (n : ℕ) : ℚ := (halfEvenZ (x * 10 ^ n) : ℚ) / 10 ^ n

/-- A JSON-ish value stored in an indicator record: strings, numbers,
arrays, `null`, an ISO date string for epoch day `day`, and the rendered
`detail` texts (each detail constructor stands for the formatted message
of one indicator together with the numbers interpolated into it). -/
inductive MVal where
  | s (v : String)
  | q (v : ℚ)
  | strArr (l : List String)
  | qArr (l : List ℚ)
  | nil
  | dateStr (day : ℤ)
  | detRrp (pct : ℚ)
  | detTga (pct : ℚ)
  | detFed (pct : ℚ)
  | detNet (pct : ℚ) (impulsePct betaV : Option ℚ)
  | detStable (pct : ℚ)
  | detUsdt (dom : ℚ) (floorV ceilV : MVal)
  | detEtf (total : ℚ)
deriving DecidableEq

/-- One record of `data.json`: `name`, `current`, the open `meta`
mapping, `detail`, and `extra` for any other fields the record carries
(the script never touches them). -/
structure Indicator where
  name : String
  current : MVal
  meta : List (String × MVal)
  detail : MVal
  extra : List (String × MVal)
deriving DecidableEq

/-- The store: the list loaded from `data.json`. -/
abbrev Store := List Indicator

/-- The record mutation every indicator update performs (e.g.
`update_rrp_yoy` lines 171-182): set `current` to the rounded value,
merge the meta patch non-destructively (patch keys overwrite), replace
`detail` wholly. -/
def applyUpdate (r : Indicator) (v : ℚ) (patch : List (String × MVal))
    (detailText : MVal) (prec : ℕ) : Indicator :=
  { r with
    current := MVal.q (roundTo v prec)
    meta := dictUpdate r.meta patch
    detail := detailText }

end BtcDash

namespace BtcDash

/-- C8: applying an indicator update twice with identical inputs yields
exactly the same record state as applying it once — `current` and
`detail` are overwritten with the same values, and replaying the meta
patch over the already-patched meta dict changes nothing (all patch keys
are present with their final values, so every assignment is an in-place
no-op that also preserves key order). -/
theorem applyUpdate_idem (r : Indicator) (v : ℚ) (patch : List (String × MVal))
    (d : MVal) (prec : ℕ) :
    applyUpdate (applyUpdate r v patch d prec) v patch d prec =
      applyUpdate r v patch d prec := by
  unfold applyUpdate
  simp [dictUpdate_idem]

/-- Does the haystack start with the pattern? -/
def startsWithL : List Char → List Char → Bool
  | _, [] => true
  | [], _ :: _ => false
  | a :: as, b :: bs => a == b && startsWithL as bs

/-- Python's `pat in s` on character lists. -/
def hasSub : List Char → List Char → Bool
  | [], pat => pat.isEmpty
  | a :: rest, pat => startsWithL (a :: rest) pat || hasSub rest pat

/-- The predicate of `find_indicator`: `keyword.lower() in name.lower()`. -/
def matchName (kw : String) (ind : Indicator) : Bool :=
  hasSub (ind.name.toList.map Char.toLower) (kw.toList.map Char.toLower)

/-- `find_indicator(data, keyword)`: first record whose lowercased name
contains the lowercased keyword. -/
def findIndicator (store : Store) (kw : String) : Option Indicator :=
  store.find? (matchName kw)

/-- Mutating the record object `find_indicator` returned: the first
matching element is replaced, everything else is untouched. -/
def updateFirstMatch {α : Type} (pr : α → Bool) (f : α → α) : List α → List α
  | [] => []
  | x :: xs => if pr x then f x :: xs else x :: updateFirstMatch pr f xs

/-- Index of the first match, if any. -/
def firstIdx {α : Type} (pr : α → Bool) : List α → Option ℕ
  | [] => none
  | x :: xs => if pr x then some 0 else (firstIdx pr xs).map (· + 1)

theorem updateFirstMatch_length {α : Type} (pr : α → Bool) (f : α → α) :
    ∀ l : List α, (updateFirstMatch pr f l).length = l.length := by
  intro l
  induction l with
  | nil => rfl
  | cons x xs ih =>
    unfold updateFirstMatch
    by_cases hx : pr x
    · rw [if_pos hx]
      simp
    · rw [if_neg hx]
      simp [ih]

theorem updateFirstMatch_get? {α : Type} (pr : α → Bool) (f : α → α) :
    ∀ (l : List α) (j : ℕ), (updateFirstMatch pr f l).get? j =
      if firstIdx pr l = some j then (l.get? j).map f else l.get? j := by
  intro l
  induction l with
  | nil => intro j; simp [updateFirstMatch, firstIdx]
  | cons x xs ih =>
    intro j
    unfold updateFirstMatch firstIdx
    by_cases hx : pr x
    · rw [if_pos hx, if_pos hx]
      cases j with
      | zero => simp
      | succ j => simp
    · rw [if_neg hx, if_neg hx]
      cases j with
      | zero =>
        cases hfi : firstIdx pr xs with
        | none => simp
        | some i => simp
      | succ j =>
        show (updateFirstMatch pr f xs).get? j = _
        rw [ih j]
        cases hfi : firstIdx pr xs with
        | none => simp
        | some i =>
          by_cases hij : i = j
          · subst hij
            simp
          · rw [if_neg (by simpa using hij)]
            simp [hij]

theorem firstIdx_isSome_iff_find? {α : Type} (pr : α → Bool) :
    ∀ l : List α, (firstIdx pr l).isSome = (List.find? pr l).isSome := by
  intro l
  induction l with
  | nil => rfl
  | cons x xs ih =>
    unfold firstIdx
    by_cases hx : pr x
    · rw [if_pos hx, List.find?_cons_of_pos _ hx]
      rfl
    · rw [if_neg hx, List.find?_cons_of_neg _ (by simpa using hx)]
      cases hfi : firstIdx pr xs with
      | none => rw [hfi] at ih; simpa using ih
      | some i => rw [hfi] at ih; simpa using ih

-- Keyword constants of the seven indicator updates.

def rrpKw : String := "RRP 逆回購"
def tgaKw : String := "TGA 財政部帳戶"
def fedKw : String := "Fed 資產負債表"
def netKw : String := "Net Liquidity 綜合指標"
def stableKw : String := "穩定幣供應 90 日成長"
def usdtKw : String := "USDT.D 穩定幣市佔率"
def etfKw : String := "ETF 5 日淨流量"

/-- `series[-1][0]` of a nonempty series (0 when empty, never used so). -/
def lastDateOf (s : Series) : ℤ := (s.getLast?.map Prod.fst).getD 0

/-- `update_rrp_yoy` with the FRED fetch injected (`none` = the request
raised and was caught). -/
def updateRrpYoy (fetch : Option Series) (store : Store) : Store :=
  match findIndicator store rrpKw with
  | none => store
  | some _ =>
    match fetch with
    | none => store
    | some series =>
      match yoy series with
      | none => store
      | some y =>
        updateFirstMatch (matchName rrpKw)
          (fun ind => applyUpdate ind (y * 100)
            [("source", MVal.s "FRED RRPONTSYD"),
             ("last_date", MVal.dateStr (lastDateOf series))]
            (MVal.detRrp (y * 100)) 2)
          store

/-- `update_tga_yoy` with the FRED fetch injected. -/
def updateTgaYoy (fetch : Option Series) (store : Store) : Store :=
  match findIndicator store tgaKw with
  | none => store
  | some _ =>
    match fetch with
    | none => store
    | some series =>
      match yoy series with
      | none => store
      | some y =>
        updateFirstMatch (matchName tgaKw)
          (fun ind => applyUpdate ind (y * 100)
            [("source", MVal.s "FRED WTREGEN"),
             ("last_date", MVal.dateStr (lastDateOf series))]
            (MVal.detTga (y * 100)) 2)
          store

/-- `update_fed_bs_yoy` with the FRED fetch injected. -/
def updateFedBsYoy (fetch : Option Series) (store : Store) : Store :=
  match findIndicator store fedKw with
  | none => store
  | some _ =>
    match fetch with
    | none => store
    | some series =>
      match yoy series with
      | none => store
      | some y =>
        updateFirstMatch (matchName fedKw)
          (fun ind => applyUpdate ind (y * 100)
            [("source", MVal.s "FRED WALCL"),
             ("last_date", MVal.dateStr (lastDateOf series))]
            (MVal.detFed (y * 100)) 2)
          store

/-- `update_net_liquidity` with the FRED fetch and the BTC download
injected.  The fetch of the three FRED series is wrapped in try/except in
the source (`none` = it raised and was caught), but `_compute_beta_vs_btc`
calls `yf.download` outside any try block: an exception there
(`btcDl = Except.error`) escapes the whole update, and it is raised
before the `yoy is None` check. -/
def updateNetLiquidity (fetch : Option (Series × Series × Series))
    (btcDl : Except String (Option (ℤ → Option ℚ))) (store : Store) :
    Except String Store :=
  match findIndicator store netKw with
  | none => Except.ok store
  | some _ =>
    match fetch with
    | none => Except.ok store
    | some (rrp, tga, bs) =>
      let net := mergeNetLiquidity rrp tga bs
      let imp? := changeVsDaysAgo net 90
      match btcDl with
      | Except.error e => Except.error e
      | Except.ok btc =>
        let beta? := computeBetaVsBtc net btc
        match yoy net with
        | none => Except.ok store
        | some y =>
          let impPct? := imp?.map (fun i => i * 100)
          Except.ok (updateFirstMatch (matchName netKw)
            (fun ind => applyUpdate ind (y * 100)
              [("source", MVal.s "FRED WALCL/RRPONTSYD/WTREGEN"),
               ("last_date", MVal.dateStr (lastDateOf net)),
               ("impulse_90d_pct", match impPct? with
                 | some i => MVal.q (roundTo i 2)
                 | none => MVal.nil),
               ("beta_vs_btc", match beta? with
                 | some b => MVal.q (roundTo b 3)
                 | none => MVal.nil)]
              (MVal.detNet (y * 100) impPct? beta?) 2) store)

/-- `update_stablecoin_growth` with the two CoinGecko outcomes injected. -/
def updateStablecoinGrowth (results : List (Option ℚ)) (store : Store) : Store :=
  match findIndicator store stableKw with
  | none => store
  | some _ =>
    match averageOfSources results with
    | none => store
    | some avg =>
      updateFirstMatch (matchName stableKw)
        (fun ind => applyUpdate ind avg
          [("source", MVal.s "CoinGecko market_chart"),
           ("coins", MVal.strArr ["tether", "usd-coin"]),
           ("sample_growth", MVal.qArr ((results.filterMap id).map (fun g => roundTo g 2)))]
          (MVal.detStable avg) 2) store

/-- `update_usdt_d_dominance` with the dominance fetch injected; the band
bounds are read from the record's own meta before the patch is merged. -/
def updateUsdtDominance (dom : Option ℚ) (store : Store) : Store :=
  match findIndicator store usdtKw with
  | none => store
  | some _ =>
    match dom with
    | none => store
    | some d =>
      updateFirstMatch (matchName usdtKw)
        (fun ind =>
          let fl := (lookupLast ind.meta "band_floor").getD (MVal.q 4)
          let ce := (lookupLast ind.meta "band_ceiling").getD (MVal.q 6)
          applyUpdate ind d
            [("source", MVal.s "CoinGecko /global market_cap_percentage.usdt"),
             ("band_floor", fl), ("band_ceiling", ce)]
            (MVal.detUsdt d fl ce) 3) store

/-- A raw JSON field value as `float(...)` receives it. -/
inductive RawVal where
  | num (q : ℚ)
  | str (v : String)
  | nil
deriving DecidableEq

/-- One SoSoValue item: `item.get("date")` and `item.get("flow", 0)`. -/
structure EtfItem where
  day : Option String
  flow : RawVal
deriving DecidableEq

/-- Python's `x or 0` on a raw value: falsy values (`0`, `""`, `None`)
give `0`, anything else passes through. -/
def orRaw0 : RawVal → RawVal
  | RawVal.num q => RawVal.num q
  | RawVal.str v => if v = "" then RawVal.num 0 else RawVal.str v
  | RawVal.nil => RawVal.num 0

def isDigitChar (c : Char) : Bool := '0' ≤ c && c ≤ '9'

def digitsToNat (acc : ℕ) : List Char → Option ℕ
  | [] => some acc
  | c :: cs => if isDigitChar c then digitsToNat (10 * acc + (c.toNat - '0'.toNat)) cs else none

/-- A model of Python's `float(string)`: optional sign, then digits with
an optional fractional part; anything else (e.g. `"abc"`) fails. -/
def parseFloat (v : String) : Option ℚ :=
  let cs := v.toList
  let sgn : ℚ := match cs with
    | '-' :: _ => -1
    | _ => 1
  let body : List Char := match cs with
    | '-' :: rest => rest
    | '+' :: rest => rest
    | _ => cs
  let ip := body.takeWhile isDigitChar
  match body.dropWhile isDigitChar with
  | [] =>
    if ip.isEmpty then none
    else (digitsToNat 0 ip).map (fun n => sgn * n)
  | '.' :: fp =>
    if fp.all isDigitChar && !(ip.isEmpty && fp.isEmpty) then
      match digitsToNat 0 ip, digitsToNat 0 fp with
      | some n, some f => some (sgn * ((n : ℚ) + (f : ℚ) / 10 ^ fp.length))
      | _, _ => none
    else none
  | _ => none

/-- Python's `float(x)`: numbers pass through, strings are parsed (a
`ValueError` escapes as `Except.error`), `None` raises. -/
def pyFloat : RawVal → Except String ℚ
  | RawVal.num q => Except.ok q
  | RawVal.str v =>
    match parseFloat v with
    | some q => Except.ok q
    | none => Except.error ("could not convert string to float: " ++ v)
  | RawVal.nil => Except.error "float() argument must be a string or a real number, not NoneType"

def lexLtChars : List Char → List Char → Bool
  | [], [] => false
  | [], _ :: _ => true
  | _ :: _, [] => false
  | a :: as, b :: bs => if a < b then true else if b < a then false else lexLtChars as bs

/-- Lexicographic string comparison by code points, as Python sorts. -/
def strLt (a b : String) : Bool := lexLtChars a.toList b.toList

def insSortedStr (d : String) : List String → List String
  | [] => [d]
  | x :: xs => if strLt d x then d :: x :: xs else x :: insSortedStr d xs

/-- `sorted(l)` for strings. -/
def sortStr (l : List String) : List String := l.foldr insSortedStr []

/-- Python's `l[-5:]` generalised: the last `n` elements. -/
def lastN {α : Type} (n : ℕ) (l : List α) : List α := l.drop (l.length - n)

/-- `fetch_sosovalue_etf_flows` with the HTTP response injected
(`none` = the request raised inside the try block and was caught).  Note
the parsing loop — in particular `float(item.get("flow", 0) or 0)` — runs
outside the try block, so a malformed flow value raises out of the whole
function. -/
def fetchSosovalueEtfFlows (resp : Option (List EtfItem)) : Except String (Option ℚ) :=
  match resp with
  | none => Except.ok none
  | some items =>
    if items.isEmpty then Except.ok none
    else
      match items.foldlM (fun (acc : List (String × ℚ)) it =>
          match pyFloat (orRaw0 it.flow) with
          | Except.error e => Except.error e
          | Except.ok f =>
            match it.day with
            | none => Except.ok acc
            | some d => Except.ok (dictInsert acc d (((lookupLast acc d).getD 0) + f)))
          ([] : List (String × ℚ)) with
      | Except.error e => Except.error e
      | Except.ok daily =>
        let days := lastN 5 (sortStr (daily.map Prod.fst))
        Except.ok (some ((days.map (fun d => (lookupLast daily d).getD 0)).sum))

/-- `update_etf_net_flow_5d`: the indicator is located first; then a
failure inside `fetch_sosovalue_etf_flows` propagates out. -/
def updateEtfNetFlow (resp : Option (List EtfItem)) (store : Store) : Except String Store :=
  match findIndicator store etfKw with
  | none => Except.ok store
  | some _ =>
    match fetchSosovalueEtfFlows resp with
    | Except.error e => Except.error e
    | Except.ok none => Except.ok store
    | Except.ok (some total) =>
      Except.ok (updateFirstMatch (matchName etfKw)
        (fun ind => applyUpdate ind total
          [("source", MVal.s "SoSoValue Spot BTC ETF API"),
           ("window", MVal.s "last 5 days")]
          (MVal.detEtf total) 2) store)

/-- All externally fetched inputs of one run, injected. -/
structure FetchEnv where
  rrpFetch : Option Series
  tgaFetch : Option Series
  bsFetch : Option Series
  netFetch : Option (Series × Series × Series)
  btcDownload : Except String (Option (ℤ → Option ℚ))
  growthResults : List (Option ℚ)
  usdtDom : Option ℚ
  etfResp : Option (List EtfItem)

/-- Outcome of `main()`: an empty/unreadable store is a no-op without a
save; otherwise the mutated store is saved at the end — unless an
uncaught exception aborts the run first (`Except.error`). -/
inductive MainResult where
  | noData
  | saved (store : Store)
deriving DecidableEq

/-- `main()`: load, the fixed sequence of seven updates, save. -/
def mainRun (env : FetchEnv) (store : Store) : Except String MainResult :=
  if store.isEmpty then Except.ok MainResult.noData
  else
    let s1 := updateRrpYoy env.rrpFetch store
    let s2 := updateTgaYoy env.tgaFetch s1
    let s3 := updateFedBsYoy env.bsFetch s2
    match updateNetLiquidity env.netFetch env.btcDownload s3 with
    | Except.error e => Except.error e
    | Except.ok s4 =>
      let s5 := updateStablecoinGrowth env.growthResults s4
      let s6 := updateUsdtDominance env.usdtDom s5
      match updateEtfNetFlow env.etfResp s6 with
      | Except.error e => Except.error e
      | Except.ok s7 => Except.ok (MainResult.saved s7)

/-- The environment of a run in which every fetch failed in the caught
way: the FRED requests and the dominance/ETF/CoinGecko requests raised
inside their try blocks, so every update skips. -/
def allFailEnv : FetchEnv :=
  { rrpFetch := none, tgaFetch := none, bsFetch := none, netFetch := none,
    btcDownload := Except.ok none, growthResults := [none, none],
    usdtDom := none, etfResp := none }

theorem updateRrpYoy_noFetch (store : Store) : updateRrpYoy none store = store := by
  unfold updateRrpYoy
  cases findIndicator store rrpKw <;> rfl

theorem updateTgaYoy_noFetch (store : Store) : updateTgaYoy none store = store := by
  unfold updateTgaYoy
  cases findIndicator store tgaKw <;> rfl

theorem updateFedBsYoy_noFetch (store : Store) : updateFedBsYoy none store = store := by
  unfold updateFedBsYoy
  cases findIndicator store fedKw <;> rfl

theorem updateNetLiquidity_noFetch (btcDl : Except String (Option (ℤ → Option ℚ)))
    (store : Store) : updateNetLiquidity none btcDl store = Except.ok store := by
  unfold updateNetLiquidity
  cases findIndicator store netKw <;> rfl

theorem updateStablecoinGrowth_allFail (store : Store) :
    updateStablecoinGrowth [none, none] store = store := by
  unfold updateStablecoinGrowth
  cases findIndicator store stableKw <;> rfl

theorem updateUsdtDominance_noFetch (store : Store) :
    updateUsdtDominance none store = store := by
  unfold updateUsdtDominance
  cases findIndicator store usdtKw <;> rfl

theorem updateEtfNetFlow_noFetch (store : Store) :
    updateEtfNetFlow none store = Except.ok store := by
  unfold updateEtfNetFlow
  cases findIndicator store etfKw <;> rfl

theorem mainRun_allFail (store : Store) (hs : store ≠ []) :
    mainRun allFailEnv store = Except.ok (MainResult.saved store) := by
  unfold mainRun
  rw [if_neg (by simpa [List.isEmpty_iff] using hs)]
  show (match updateNetLiquidity none (Except.ok none)
      (updateFedBsYoy none (updateTgaYoy none (updateRrpYoy none store))) with
    | Except.error e => Except.error e
    | Except.ok s4 =>
      match updateEtfNetFlow none (updateUsdtDominance none
          (updateStablecoinGrowth [none, none] s4)) with
      | Except.error e => Except.error e
      | Except.ok s7 => Except.ok (MainResult.saved s7)) = Except.ok (MainResult.saved store)
  rw [updateRrpYoy_noFetch, updateTgaYoy_noFetch, updateFedBsYoy_noFetch,
    updateNetLiquidity_noFetch]
  show (match updateEtfNetFlow none (updateUsdtDominance none
      (updateStablecoinGrowth [none, none] store)) with
    | Except.error e => Except.error e
    | Except.ok s7 => Except.ok (MainResult.saved s7)) = Except.ok (MainResult.saved store)
  rw [updateStablecoinGrowth_allFail, updateUsdtDominance_noFetch, updateEtfNetFlow_noFetch]

end BtcDash

namespace BtcDash

/-- C9: an RRP update mutates only the matched record's `current`,
`detail` and the meta keys of its patch (`source`, `last_date`): every
record at any other position is unchanged, and the matched record keeps
its `name`, its unknown `extra` fields, and the binding of every meta key
outside the patch; moreover a run in which every fetch failed (so no
indicator is updated) saves every record of the store unchanged. -/
theorem updateRrpYoy_frame :
    (∀ (fetch : Option Series) (store : Store) (j : ℕ),
      firstIdx (matchName rrpKw) store ≠ some j →
      (updateRrpYoy fetch store).get? j = store.get? j) ∧
    (∀ (series : Series) (y : ℚ) (store : Store) (j : ℕ) (r : Indicator),
      yoy series = some y →
      firstIdx (matchName rrpKw) store = some j →
      store.get? j = some r →
      ∃ r', (updateRrpYoy (some series) store).get? j = some r' ∧
        r'.name = r.name ∧ r'.extra = r.extra ∧
        ∀ k : String, k ≠ "source" → k ≠ "last_date" →
          lookupLast r'.meta k = lookupLast r.meta k) ∧
    (∀ store : Store, store ≠ [] →
      mainRun allFailEnv store = Except.ok (MainResult.saved store)) := by
  refine ⟨?_, ?_, mainRun_allFail⟩
  · intro fetch store j hj
    cases hfind : findIndicator store rrpKw with
    | none => simp only [updateRrpYoy, hfind]
    | some ind =>
      cases fetch with
      | none => simp only [updateRrpYoy, hfind]
      | some series =>
        cases hy : yoy series with
        | none => simp only [updateRrpYoy, hfind, hy]
        | some y =>
          simp only [updateRrpYoy, hfind, hy]
          rw [updateFirstMatch_get?, if_neg hj]
  · intro series y store j r hy hidx hget
    have hfind : ∃ ind, findIndicator store rrpKw = some ind := by
      have h1 : (firstIdx (matchName rrpKw) store).isSome := by rw [hidx]; rfl
      rw [firstIdx_isSome_iff_find? (matchName rrpKw) store] at h1
      exact Option.isSome_iff_exists.mp h1
    obtain ⟨ind, hind⟩ := hfind
    simp only [updateRrpYoy, hind, hy]
    rw [updateFirstMatch_get?, if_pos hidx, hget]
    refine ⟨_, rfl, rfl, rfl, ?_⟩
    intro k hk1 hk2
    show lookupLast (dictUpdate r.meta
      [("source", MVal.s "FRED RRPONTSYD"),
       ("last_date", MVal.dateStr (lastDateOf series))]) k = lookupLast r.meta k
    exact lookupLast_dictUpdate_untouched (by simp [hk1, hk2]) r.meta

/-- The record and one-record store of the C9 witness. -/
def rrpRec0 : Indicator :=
  { name := "RRP 逆回購餘額 YoY（%）", current := MVal.nil,
    meta := [("x", MVal.q 1)], detail := MVal.nil, extra := [("note", MVal.s "keep")] }

def rrpStore0 : Store := [rrpRec0]

/-- Witness for C9: the frame property instantiated on a concrete store
and series, and the no-update run on the same store. -/
theorem updateRrpYoy_frame_witness :
    (∃ r', (updateRrpYoy (some [((-365:ℤ), (100:ℚ)), (0, 110)]) rrpStore0).get? 0 = some r' ∧
      r'.name = rrpRec0.name ∧ r'.extra = rrpRec0.extra ∧
      ∀ k : String, k ≠ "source" → k ≠ "last_date" →
        lookupLast r'.meta k = lookupLast rrpRec0.meta k) ∧
    mainRun allFailEnv rrpStore0 = Except.ok (MainResult.saved rrpStore0) := by
  constructor
  · refine updateRrpYoy_frame.2.1 [((-365:ℤ), (100:ℚ)), (0, 110)] (1/10) rrpStore0 0 rrpRec0
      ?_ ?_ rfl
    · norm_num [yoy, valueNear, pyMin, zabs, qabs]
    · decide
  · exact updateRrpYoy_frame.2.2 rrpStore0 (by simp [rrpStore0])

/-- The store and environment of the C1 failing input: the store holds
the ETF indicator, every other fetch fails in the caught way, and the
SoSoValue response contains an item whose `flow` field is the string
`"abc"`. -/
def badEtfStore : Store :=
  [{ name := "比特幣現貨 ETF 5 日淨流量（美元）", current := MVal.nil,
     meta := [], detail := MVal.nil, extra := [] }]

def badEtfEnv : FetchEnv :=
  { allFailEnv with etfResp := some [⟨some "2024-01-01", RawVal.str "abc"⟩] }

/-- C1 (the code at the failing input): with a SoSoValue payload whose
`flow` is the non-numeric string `"abc"`, the `float()` call at line 544
— outside the try block — raises; the exception escapes
`fetch_sosovalue_etf_flows` and `update_etf_net_flow_5d`, aborts
`main()`, and `save_data` never runs, contradicting the claim that no
indicator-level exception may abort the run or skip the final save. -/
theorem mainRun_aborts_on_bad_flow :
    mainRun badEtfEnv badEtfStore =
      Except.error "could not convert string to float: abc" ∧
    fetchSosovalueEtfFlows badEtfEnv.etfResp =
      Except.error "could not convert string to float: abc" := by
  constructor <;> rfl

end BtcDash
